import Mathlib

/-!
StringUtils: `toUpper` and `reverse`.

Shallow embedding of `src/src/string_utils.cpp`.

A `std::string` is a finite sequence of `char` objects; a `char` is kept as
its bit pattern, a number in `0..255`.  Whether plain `char` is a signed type
is left to the compiler by the language, so every definition that converts
between `char` and `int` takes that choice as the parameter `signedChar`.
-/

namespace StringUtils

/-- One `char` object, as its bit pattern `0..255`. -/
abbrev CChar := Fin 256

/-- A `std::string` value: the sequence of its characters, first one first. -/
abbrev Str := List CChar

/-- The macro `EOF` of `<cstdio>`. -/
def EOF : Int := -1

/-- The macro `UCHAR_MAX` of `<climits>`. -/
def UCHAR_MAX : Int := 255

/-- Conversion `char → int` that takes place when `std::transform` hands
`*first` to `int toupper(int)`: the value of the `char`, which for a signed
`char` with the top bit set is negative. -/
def charToInt (signedChar : Bool) (c : CChar) : Int :=
  if signedChar ∧ 128 ≤ c.val then (c.val : Int) - 256 else (c.val : Int)

/-- Conversion `int → char` that takes place when `std::transform` stores the
`int` returned by `toupper` through `result.begin()`: the value modulo `2^8`. -/
def intToChar (n : Int) : CChar :=
  ⟨(n % 256).toNat, by omega⟩

/-- Argument domain of `int toupper(int)` (C standard, `<ctype.h>`): the
argument shall be representable as `unsigned char` or equal `EOF`. -/
def toupperDefined (c : Int) : Bool :=
  c == EOF || (0 ≤ c && c ≤ UCHAR_MAX)

/-- The library function `::toupper` in the "C" locale, the locale in effect
at program start (nothing in the repository calls `setlocale`): a lowercase
letter `'a'..'z'` (97..122) gives the matching uppercase letter, every other
argument is returned unchanged.  On arguments outside `toupperDefined` the
standard defines no result; the value given here for them is the one the
common C libraries return (the argument itself), and `toupperDefined` records
separately whether a call is within the domain. -/
def toupper (c : Int) : Int :=
  if 97 ≤ c ∧ c ≤ 122 then c - 32 else c

/-- The call `std::transform(first, last, first, op)`: `op` is applied to each
element in order and the value it returns is stored in that element's place. -/
def transform (op : CChar → CChar) : Str → Str
  | [] => []
  | c :: rest => op c :: transform op rest

/-- The unary operation `std::transform` runs on one character in `toUpper`:
`char → int`, the call of `::toupper`, `int → char`. -/
def toupperChar (signedChar : Bool) (c : CChar) : CChar :=
  intToChar (toupper (charToInt signedChar c))

/-- `StringUtils::toUpper`: copies `input` to `result`, transforms `result`
in place with `::toupper`, returns `result`. -/
def toUpper (signedChar : Bool) (input : Str) : Str :=
  let result := input
  transform (toupperChar signedChar) result

/-- Whether every call of `::toupper` made by `toUpper` on `input` has its
argument within the function's defined domain. -/
def toUpperCallsDefined (signedChar : Bool) (input : Str) : Bool :=
  input.all (fun c => toupperDefined (charToInt signedChar c))

/-- The range constructor `std::string(rfirst, rlast)` over reverse iterators.
A reverse iterator whose base stands at position `k` reads the element at
position `k - 1`; incrementing it moves the base to `k - 1`; the range ends
when the base reaches position `0` (`rend()`).  The characters read are
appended to the new string in the order they are read. -/
def fromReverseRange (input : Str) : (k : Nat) → k ≤ input.length → Str
  | 0, _ => []
  | k + 1, h => input.get ⟨k, h⟩ :: fromReverseRange input k (Nat.le_of_succ_le h)

/-- `StringUtils::reverse`: the string built from `input.rbegin()` (base at
`input.size()`) to `input.rend()`. -/
def reverse (input : Str) : Str :=
  fromReverseRange input input.length (Nat.le_refl _)

/-- The uppercase equivalent of a byte as the specification words it:
`'a'..'z'` become `'A'..'Z'` (the byte minus 32), every other byte stays. -/
def upperEquivalent (c : CChar) : CChar :=
  if h : 97 ≤ c.val ∧ c.val ≤ 122 then ⟨c.val - 32, by omega⟩ else c

/-- An ASCII letter: `'A'..'Z'` (65..90) or `'a'..'z'` (97..122). -/
def isAsciiLetter (c : CChar) : Bool :=
  (65 ≤ c.val && c.val ≤ 90) || (97 ≤ c.val && c.val ≤ 122)

/-- The two `std::string` objects in play during a call of `toUpper`: the
caller's string, which the parameter `input` refers to through a `const`
reference, and the local variable `result`. -/
structure Frame where
  input : Str
  result : Str

/-- The loop of `std::transform(result.begin(), result.end(), result.begin(),
op)` as steps on the frame: with `remaining` elements to go and both iterators
at position `i`, it reads `result[i]`, stores `op` of it in `result[i]` and
advances.  Every store goes through an iterator of `result`. -/
def transformResult (op : CChar → CChar) : (remaining : Nat) → (i : Nat) → Frame → Frame
  | 0, _, fr => fr
  | n + 1, i, fr =>
    match fr.result[i]? with
    | some c => transformResult op n (i + 1) { fr with result := fr.result.set i (op c) }
    | none => fr

/-- `StringUtils::toUpper` as steps on the frame: `std::string result = input;`
copies the caller's string into `result`, the transform runs from
`result.begin()` to `result.end()`, and the final frame holds the caller's
string and the `result` that is returned. -/
def toUpperFrame (signedChar : Bool) (s : Str) : Frame :=
  let fr : Frame := { input := s, result := s }
  transformResult (toupperChar signedChar) fr.result.length 0 fr

/-! ## Shared lemmas -/

theorem fromReverseRange_eq (input : Str) :
    ∀ (k : Nat) (h : k ≤ input.length),
      fromReverseRange input k h = (input.take k).reverse := by
  intro k
  induction k with
  | zero => intro _; simp [fromReverseRange]
  | succ k ih =>
    intro h
    have hk : k < input.length := h
    have hsplit : input.take (k + 1) = input.take k ++ [input.get ⟨k, hk⟩] := by
      rw [List.take_succ, List.getElem?_eq_getElem hk]
      rfl
    rw [fromReverseRange, ih, hsplit, List.reverse_concat]

theorem reverse_eq_list_reverse (input : Str) : reverse input = input.reverse := by
  simp [reverse, fromReverseRange_eq]

theorem transform_eq_map (op : CChar → CChar) (s : Str) :
    transform op s = s.map op := by
  induction s with
  | nil => rfl
  | cons c rest ih => simp [transform, ih]

theorem toupperChar_eq (signedChar : Bool) (c : CChar) :
    toupperChar signedChar c = upperEquivalent c := by
  obtain ⟨n, hn⟩ := c
  apply Fin.ext
  simp only [toupperChar, intToChar, toupper, charToInt, upperEquivalent]
  by_cases hs : signedChar = true ∧ 128 ≤ n
  · have hlo : ¬ (97 ≤ n ∧ n ≤ 122) := by omega
    have hlo2 : ¬ ((97 : Int) ≤ (n : Int) - 256 ∧ (n : Int) - 256 ≤ 122) := by omega
    rw [if_pos hs, if_neg hlo2, dif_neg hlo]
    show ((((n : Int) - 256) % 256).toNat) = n
    omega
  · rw [if_neg hs]
    by_cases hlo : 97 ≤ n ∧ n ≤ 122
    · have hlo2 : (97 : Int) ≤ (n : Int) ∧ (n : Int) ≤ 122 := by omega
      rw [if_pos hlo2, dif_pos hlo]
      show ((((n : Int) - 32) % 256).toNat) = n - 32
      omega
    · have hlo2 : ¬ ((97 : Int) ≤ (n : Int) ∧ (n : Int) ≤ 122) := by omega
      rw [if_neg hlo2, dif_neg hlo]
      show (((n : Int) % 256).toNat) = n
      omega

theorem toUpper_eq_map (signedChar : Bool) (s : Str) :
    toUpper signedChar s = s.map upperEquivalent := by
  simp only [toUpper, transform_eq_map]
  exact List.map_congr_left (fun c _ => toupperChar_eq signedChar c)

theorem upperEquivalent_idem (c : CChar) :
    upperEquivalent (upperEquivalent c) = upperEquivalent c := by
  obtain ⟨n, hn⟩ := c
  by_cases hlo : 97 ≤ n ∧ n ≤ 122
  · have h1 : upperEquivalent ⟨n, hn⟩ = ⟨n - 32, by omega⟩ := by
      simp only [upperEquivalent]; rw [dif_pos hlo]
    have h2 : ¬ (97 ≤ n - 32 ∧ n - 32 ≤ 122) := by omega
    rw [h1]
    simp only [upperEquivalent]
    rw [dif_neg h2]
  · have h1 : upperEquivalent ⟨n, hn⟩ = ⟨n, hn⟩ := by
      simp only [upperEquivalent]; rw [dif_neg hlo]
    rw [h1, h1]

theorem upperEquivalent_of_not_letter (c : CChar) (h : isAsciiLetter c = false) :
    upperEquivalent c = c := by
  have hlo : ¬ (97 ≤ c.val ∧ c.val ≤ 122) := by
    intro hc
    simp [isAsciiLetter, hc.1, hc.2] at h
  simp only [upperEquivalent]
  rw [dif_neg hlo]

theorem toUpperCallsDefined_unsigned (s : Str) :
    toUpperCallsDefined false s = true := by
  rw [toUpperCallsDefined, List.all_eq_true]
  intro c _
  obtain ⟨n, hn⟩ := c
  simp only [charToInt, toupperDefined, EOF, UCHAR_MAX]
  have hs : ¬ (false = true ∧ 128 ≤ n) := by simp
  rw [if_neg hs]
  have h0 : (0 : Int) ≤ (n : Int) := by omega
  have h1 : (n : Int) ≤ 255 := by omega
  simp [h0, h1]

theorem toupperDefined_signed_iff (c : CChar) :
    toupperDefined (charToInt true c) = true ↔ c.val < 128 ∨ c.val = 255 := by
  obtain ⟨n, hn⟩ := c
  simp only [charToInt, toupperDefined, EOF, UCHAR_MAX, Bool.or_eq_true, Bool.and_eq_true,
    beq_iff_eq, decide_eq_true_eq]
  by_cases h : 128 ≤ n
  · rw [if_pos ⟨trivial, h⟩]
    omega
  · have hs : ¬ (True ∧ 128 ≤ n) := fun hc => h hc.2
    rw [if_neg hs]
    omega

theorem toUpperCallsDefined_signed_iff (s : Str) :
    toUpperCallsDefined true s = true ↔ ∀ c ∈ s, c.val < 128 ∨ c.val = 255 := by
  rw [toUpperCallsDefined, List.all_eq_true]
  constructor
  · intro h c hc
    exact (toupperDefined_signed_iff c).1 (h c hc)
  · intro h c hc
    exact (toupperDefined_signed_iff c).2 (h c hc)

theorem transformResult_input (op : CChar → CChar) :
    ∀ (n i : Nat) (fr : Frame), (transformResult op n i fr).input = fr.input := by
  intro n
  induction n with
  | zero => intro i fr; rfl
  | succ n ih =>
    intro i fr
    simp only [transformResult]
    split
    · rw [ih]
    · rfl

theorem transformResult_result (op : CChar → CChar) :
    ∀ (n : Nat) (pre rest : Str) (fr : Frame),
      fr.result = pre ++ rest → rest.length = n →
      (transformResult op n pre.length fr).result = pre ++ rest.map op := by
  intro n
  induction n with
  | zero =>
    intro pre rest fr hfr hlen
    have hnil : rest = [] := List.length_eq_zero.mp hlen
    subst hnil
    simpa [transformResult] using hfr
  | succ n ih =>
    intro pre rest fr hfr hlen
    cases rest with
    | nil => simp at hlen
    | cons c tl =>
      have hget : fr.result[pre.length]? = some c := by
        rw [hfr, List.getElem?_append_right (Nat.le_refl _)]
        simp
      have hset : fr.result.set pre.length (op c) = (pre ++ [op c]) ++ tl := by
        rw [hfr, List.set_append_right _ _ (Nat.le_refl _)]
        simp
      have hlen2 : tl.length = n := by simpa using hlen
      have hstep := ih (pre ++ [op c]) tl
        { fr with result := fr.result.set pre.length (op c) } hset hlen2
      simp only [transformResult, hget]
      rw [List.length_append, List.length_singleton] at hstep
      rw [hstep]
      simp

/-! ## The claims -/

/-- C1: for every string `s`, `reverse (reverse s)` is `s`. -/
theorem reverse_involutive (s : Str) : reverse (reverse s) = s := by
  rw [reverse_eq_list_reverse, reverse_eq_list_reverse, List.reverse_reverse]

/-- C2: for every string `s` and index `i < length s`, the byte at index `i`
of `toUpper s` is the uppercase equivalent of `s[i]`: a lowercase ASCII letter
becomes the byte minus 32, every other byte is copied unchanged; whatever the
signedness of `char`.  Also `toUpper "abc" = "ABC"` and
`toUpper "Hello World!" = "HELLO WORLD!"` (as ASCII codes). -/
theorem toUpper_index :
    (∀ (signedChar : Bool) (s : Str) (i : Nat) (h : i < s.length),
        (toUpper signedChar s)[i]? = some (upperEquivalent (s.get ⟨i, h⟩)) ∧
        (upperEquivalent (s.get ⟨i, h⟩)).val =
          if 97 ≤ (s.get ⟨i, h⟩).val ∧ (s.get ⟨i, h⟩).val ≤ 122
          then (s.get ⟨i, h⟩).val - 32 else (s.get ⟨i, h⟩).val) ∧
    (∀ signedChar : Bool,
        toUpper signedChar [97, 98, 99] = [65, 66, 67] ∧
        toUpper signedChar [72, 101, 108, 108, 111, 32, 87, 111, 114, 108, 100, 33]
          = [72, 69, 76, 76, 79, 32, 87, 79, 82, 76, 68, 33]) := by
  refine ⟨?_, ?_⟩
  · intro signedChar s i h
    refine ⟨?_, ?_⟩
    · rw [toUpper_eq_map, List.getElem?_map, List.getElem?_eq_getElem h]
      rfl
    · simp only [upperEquivalent]
      split <;> rfl
  · intro signedChar
    cases signedChar <;> decide

/-- Witness of C2 at `s = "aZ"`, index 0, signed `char`. -/
theorem toUpper_index_witness :
    (toUpper true [97, 90])[0]? = some (upperEquivalent (97 : CChar)) :=
  (toUpper_index.1 true [97, 90] 0 (by decide)).1

/-- C3: for every string `s` of length `n` and index `i < n`, the byte at
index `i` of `reverse s` is `s[n-1-i]`.  Also `reverse "abc" = "cba"`. -/
theorem reverse_index :
    (∀ (s : Str) (i : Nat) (h : i < s.length),
        (reverse s)[i]? = some (s.get ⟨s.length - 1 - i, by omega⟩)) ∧
    reverse [97, 98, 99] = [99, 98, 97] := by
  refine ⟨?_, by decide⟩
  intro s i h
  have h2 : s.length - 1 - i < s.length := by omega
  rw [reverse_eq_list_reverse, List.getElem?_reverse h, List.getElem?_eq_getElem h2]
  rfl

/-- Witness of C3 at `s = "abc"`, index 0. -/
theorem reverse_index_witness : (reverse [97, 98, 99])[0]? = some (99 : CChar) :=
  reverse_index.1 [97, 98, 99] 0 (by decide)

/-- C4: `toUpper` is idempotent: for every string `s`,
`toUpper (toUpper s) = toUpper s`. -/
theorem toUpper_idempotent (signedChar : Bool) (s : Str) :
    toUpper signedChar (toUpper signedChar s) = toUpper signedChar s := by
  rw [toUpper_eq_map, toUpper_eq_map, List.map_map]
  exact List.map_congr_left (fun c _ => upperEquivalent_idem c)

/-- C5: for every string `s`, `toUpper s` has the length of `s`. -/
theorem toUpper_length (signedChar : Bool) (s : Str) :
    (toUpper signedChar s).length = s.length := by
  rw [toUpper_eq_map, List.length_map]

/-- C6: for every string `s`, `reverse s` has the length of `s`. -/
theorem reverse_length (s : Str) : (reverse s).length = s.length := by
  rw [reverse_eq_list_reverse, List.length_reverse]

/-- C7: for every string `s` none of whose bytes is an ASCII letter,
`toUpper s = s`. -/
theorem toUpper_nonalpha (signedChar : Bool) (s : Str)
    (h : ∀ c ∈ s, isAsciiLetter c = false) : toUpper signedChar s = s := by
  rw [toUpper_eq_map]
  have hid : s.map upperEquivalent = s.map id :=
    List.map_congr_left (fun c hc => upperEquivalent_of_not_letter c (h c hc))
  rw [hid, List.map_id]

/-- Witness of C7 at `s = "12 !"` followed by the byte `0x80`, signed `char`. -/
theorem toUpper_nonalpha_witness :
    toUpper true [49, 50, 32, 33, 128] = [49, 50, 32, 33, 128] :=
  toUpper_nonalpha true [49, 50, 32, 33, 128] (by
    intro c hc
    simp only [List.mem_cons, List.mem_singleton, List.not_mem_nil, or_false] at hc
    rcases hc with rfl | rfl | rfl | rfl | rfl <;> rfl)

/-- C8: for every palindromic string `s` (`s[i] = s[length s - 1 - i]` for
every index `i < length s`), `reverse s = s`.  Also
`reverse "racecar" = "racecar"`. -/
theorem reverse_palindrome :
    (∀ s : Str, (∀ i, i < s.length → s[i]? = s[s.length - 1 - i]?) → reverse s = s) ∧
    reverse [114, 97, 99, 101, 99, 97, 114] = [114, 97, 99, 101, 99, 97, 114] := by
  refine ⟨?_, by decide⟩
  intro s hp
  rw [reverse_eq_list_reverse]
  apply List.ext_getElem?
  intro n
  by_cases hn : n < s.length
  · rw [List.getElem?_reverse hn]
    exact (hp n hn).symm
  · have h1 : s.length ≤ n := by omega
    have h2 : s.reverse.length ≤ n := by rw [List.length_reverse]; exact h1
    rw [List.getElem?_eq_none h1, List.getElem?_eq_none h2]

/-- Witness of C8 at the palindrome `s = "abba"`. -/
theorem reverse_palindrome_witness : reverse [97, 98, 98, 97] = [97, 98, 98, 97] :=
  reverse_palindrome.1 [97, 98, 98, 97] (by decide)

/-- C9, evaluated where it fails: with a signed `char`, `toUpper` on the
one-byte string `"\x80"` calls `::toupper` with the argument `-128`, which is
neither `EOF` nor representable as `unsigned char`, so not every call is
within the function's defined domain. -/
theorem toUpper_call_outside_domain :
    charToInt true 128 = -128 ∧ toupperDefined (-128) = false ∧
      toUpperCallsDefined true [128] = false := by
  decide

/-- C10: `toUpper` and `reverse` map the empty string to the empty string. -/
theorem toUpper_reverse_empty :
    (∀ signedChar : Bool, toUpper signedChar [] = []) ∧ reverse [] = [] :=
  ⟨fun _ => rfl, rfl⟩

/-- C11: for every string `s`, after a call of `toUpper` on it the caller's
string holds exactly the bytes it held before: the mapping is applied in place
to the copy `result`, which ends as the returned value, never to the input. -/
theorem toUpper_input_unchanged (signedChar : Bool) (s : Str) :
    (toUpperFrame signedChar s).input = s ∧
      (toUpperFrame signedChar s).result = toUpper signedChar s := by
  refine ⟨?_, ?_⟩
  · simp only [toUpperFrame]
    rw [transformResult_input]
  · have h := transformResult_result (toupperChar signedChar) s.length [] s
      { input := s, result := s } rfl rfl
    simp only [toUpperFrame, toUpper, transform_eq_map]
    simpa using h

/-- C12: for every string `s` of length exactly 1, `reverse s = s`. -/
theorem reverse_single_char (s : Str) (h : s.length = 1) : reverse s = s := by
  obtain ⟨c, hc⟩ := List.length_eq_one.mp h
  subst hc
  rfl

/-- Witness of C12 at `s = "a"`. -/
theorem reverse_single_char_witness : reverse [97] = [97] :=
  reverse_single_char [97] rfl

/-- C13: for every string `s` and byte `c`, `c` occurs in `reverse s` as often
as in `s`; the result is a permutation of the input. -/
theorem reverse_count_eq (s : Str) (c : CChar) :
    (reverse s).count c = s.count c ∧ (reverse s).Perm s := by
  rw [reverse_eq_list_reverse]
  exact ⟨List.count_reverse c s, List.reverse_perm s⟩

/-- C14: for every string `s`, `toUpper (reverse s) = reverse (toUpper s)`. -/
theorem toUpper_reverse_commute (signedChar : Bool) (s : Str) :
    toUpper signedChar (reverse s) = reverse (toUpper signedChar s) := by
  rw [reverse_eq_list_reverse, reverse_eq_list_reverse, toUpper_eq_map, toUpper_eq_map,
    List.map_reverse]

/-- C15: for every string `s`, no byte of `toUpper s` lies in `'a'..'z'`
(97..122). -/
theorem toUpper_no_lowercase (signedChar : Bool) (s : Str) :
    ∀ c ∈ toUpper signedChar s, ¬ (97 ≤ c.val ∧ c.val ≤ 122) := by
  intro c hc
  rw [toUpper_eq_map, List.mem_map] at hc
  obtain ⟨d, _, hd⟩ := hc
  subst hd
  obtain ⟨n, hn⟩ := d
  simp only [upperEquivalent]
  by_cases hlo : 97 ≤ n ∧ n ≤ 122
  · rw [dif_pos hlo]
    show ¬ (97 ≤ n - 32 ∧ n - 32 ≤ 122)
    omega
  · rw [dif_neg hlo]
    exact hlo

/-- Witness of C15 at `s = "az"`, signed `char`, for the byte `'A'` of the
result. -/
theorem toUpper_no_lowercase_witness :
    (65 : CChar) ∈ toUpper true [97, 122] ∧
      ¬ (97 ≤ (65 : CChar).val ∧ (65 : CChar).val ≤ 122) :=
  ⟨by decide, toUpper_no_lowercase true [97, 122] 65 (by decide)⟩

/-- C16: for all strings `a` and `b`,
`reverse (a ++ b) = reverse b ++ reverse a`. -/
theorem reverse_antihom_append (a b : Str) :
    reverse (a ++ b) = reverse b ++ reverse a := by
  rw [reverse_eq_list_reverse, reverse_eq_list_reverse, reverse_eq_list_reverse,
    List.reverse_append]

/-- C17: for all strings `a` and `b`,
`toUpper (a ++ b) = toUpper a ++ toUpper b`. -/
theorem toUpper_hom_append (signedChar : Bool) (a b : Str) :
    toUpper signedChar (a ++ b) = toUpper signedChar a ++ toUpper signedChar b := by
  rw [toUpper_eq_map, toUpper_eq_map, toUpper_eq_map, List.map_append]

end StringUtils
